import Mathlib

/-!
Verification of the classification and reconciliation engine of the
github-snippets report generator (`main.go`).

The Go code is shallowly embedded: Go maps are modelled as association
lists (`List (Url × α)`) with unique keys, Go sets (`map[url]struct{}`)
as `List Url` with membership-checking insertion, and the remote GitHub
client as an explicit fetch function `prInfo → Option PullRequest`
(`none` models the fatal `log.Fatalf` path).  Strings are Lean `String`s,
which in this toolchain are lists of characters, so character-level
operations (`strings.Split`, `strings.Replace`) are embedded as list
recursions.
-/

/-- Canonical identifier of an issue or pull request: its web address
(Go type `url`, `main.go` line 115). -/
abbrev Url := String

/-- The fragment of `github.Label` used by the program: `GetName`. -/
structure Label where
  name : String
deriving DecidableEq

/-- The fragment of `github.PullRequest` that `makeEventSets` inspects:
`GetUser().GetLogin()`, `GetState()`, `GetMerged()`, `Labels`,
`GetTitle()`, `GetHTMLURL()`.  The Go getters return zero values for
nil pointers, so plain fields model them. -/
structure PullRequest where
  userLogin : String
  state : String
  merged : Bool
  labels : List Label
  title : String
  htmlURL : String
deriving DecidableEq

/-- Structured pull-request coordinates (Go struct `prInfo`,
`main.go` lines 134-138).  Go `int` is modelled as `Int`. -/
structure prInfo where
  owner : String
  repo : String
  number : Int
deriving DecidableEq

/-- The `nameable` interface (`main.go` lines 208-211): anything with a
title and an HTML URL. -/
structure Nameable where
  title : String
  htmlURL : String
deriving DecidableEq

/-- Lookup in an association list, modelling Go map indexing
`names[url]` (`none` models `ok == false`). -/
def findName (names : List (Url × String)) (u : Url) : Option String :=
  match names with
  | [] => none
  | (k, v) :: rest => if k = u then some v else findName rest u

/-- Assignment `names[url] = v` on the association-list model of a Go
map: replaces the binding if the key is present, otherwise appends. -/
def setName (names : List (Url × String)) (u : Url) (v : String) :
    List (Url × String) :=
  match names with
  | [] => [(u, v)]
  | (k, w) :: rest =>
    if k = u then (u, v) :: rest else (k, w) :: setName rest u v

/-- `fmt.Sprintf("[%s](%s)", title, htmlURL)` (`main.go` line 224). -/
def formatName (title htmlURL : String) : String :=
  "[" ++ title ++ "](" ++ htmlURL ++ ")"

/-- `(*issuesAndPRs).overrideName` (`main.go` lines 223-225) acting on
the names map. -/
def overrideName (names : List (Url × String)) (u : Url) (n : Nameable) :
    List (Url × String) :=
  setName names u (formatName n.title n.htmlURL)

/-- `(*issuesAndPRs).addName` (`main.go` lines 213-221) acting on the
names map: stores the formatted name only if the key is absent. -/
def addName (names : List (Url × String)) (n : Nameable) :
    List (Url × String) :=
  match findName names n.htmlURL with
  | some _ => names
  | none => overrideName names n.htmlURL n

/-- Insertion into a Go set `map[url]struct{}` modelled as a
duplicate-free list: `set[url] = struct{}{}`. -/
def insertUrl (s : List Url) (u : Url) : List Url :=
  if u ∈ s then s else u :: s

/-- `isWorkInProgress` (`main.go` lines 309-316): scans the label list
for the hard-coded WIP label name. -/
def isWorkInProgress (labels : List Label) : Bool :=
  labels.any (fun l => l.name = "do-not-merge/work-in-progress")

/-- Go struct `eventSets` (`main.go` lines 118-126): the name registry
plus the six category sets. -/
structure eventSets where
  names : List (Url × String)
  merged : List Url
  abandoned : List Url
  underReview : List Url
  inProgress : List Url
  reviewed : List Url
  issues : List Url
deriving DecidableEq

/-- Go struct `issuesAndPRs` (`main.go` lines 128-132).  Only the keys
of the `issues` map matter to the claims, so it is modelled as the list
of its keys; `prs` keeps its `prInfo` values. -/
structure issuesAndPRs where
  names : List (Url × String)
  issues : List Url
  prs : List (Url × prInfo)
deriving DecidableEq

/-- Loop body of `(*issuesAndPRs).getPRs` (`main.go` lines 296-307):
fetch each referenced pull request (a failed fetch is the fatal path,
modelled by `none`), record it, and override the registry name with the
freshly fetched title and URL. -/
def getPRsAux (fetch : prInfo → Option PullRequest) :
    List (Url × prInfo) → List (Url × String) → List (Url × PullRequest) →
    Option (List (Url × String) × List (Url × PullRequest))
  | [], names, acc => some (names, acc)
  | (u, info) :: rest, names, acc =>
    match fetch info with
    | none => none
    | some newPR =>
      getPRsAux fetch rest
        (setName names u (formatName newPR.title newPR.htmlURL))
        (acc ++ [(u, newPR)])

/-- `(*issuesAndPRs).getPRs` (`main.go` lines 296-307): returns the
updated names map and the map of freshly fetched pull requests. -/
def getPRs (fetch : prInfo → Option PullRequest) (e : issuesAndPRs) :
    Option (List (Url × String) × List (Url × PullRequest)) :=
  getPRsAux fetch e.prs e.names []

/-- Body of the pull-request loop of `makeEventSets` (`main.go` lines
265-286): route one fetched pull request into a category set. -/
def prStep (user : String) (es : eventSets) (p : Url × PullRequest) :
    eventSets :=
  if p.2.userLogin ≠ user then
    { es with reviewed := insertUrl es.reviewed p.1 }
  else if p.2.state = "open" then
    (if isWorkInProgress p.2.labels then
      { es with inProgress := insertUrl es.inProgress p.1 }
    else
      { es with underReview := insertUrl es.underReview p.1 })
  else if p.2.state = "closed" then
    (if p.2.merged then
      { es with merged := insertUrl es.merged p.1 }
    else
      { es with abandoned := insertUrl es.abandoned p.1 })
  else
    es

/-- Body of the issues loop of `makeEventSets` (`main.go` lines
288-290). -/
def issueStep (es : eventSets) (u : Url) : eventSets :=
  { es with issues := insertUrl es.issues u }

/-- `(*issuesAndPRs).makeEventSets` (`main.go` lines 252-294): fetch
current state for every discovered pull-request reference (fatal — the
`none` branch — if any fetch fails), classify each into one of the five
pull-request categories, and copy every plain issue into `issues`.
The Go `eventSets` aliases `e.names`, which `getPRs` mutates in place,
so the result holds the post-override names map. -/
def makeEventSets (user : String) (fetch : prInfo → Option PullRequest)
    (e : issuesAndPRs) : Option eventSets :=
  match getPRs fetch e with
  | none => none
  | some (names2, newPRs) =>
    let es0 : eventSets :=
      { names := names2, merged := [], abandoned := [], underReview := [],
        inProgress := [], reviewed := [], issues := [] }
    let es1 := newPRs.foldl (prStep user) es0
    some (e.issues.foldl issueStep es1)

/-- Splitting a character list at a separator, embedding Go
`strings.Split` with the one-character separator `"/"` (the result is
never empty; splitting the empty string yields `[[]]`, matching Go). -/
def splitChar (sep : Char) : List Char → List (List Char)
  | [] => [[]]
  | c :: rest =>
    match splitChar sep rest with
    | [] => [[c]]
    | s :: ss => if c = sep then [] :: s :: ss else (c :: s) :: ss

/-- One decimal digit, as `strconv.Atoi` reads it. -/
def digitVal (c : Char) : Option Nat :=
  if '0' ≤ c ∧ c ≤ '9' then some (c.toNat - '0'.toNat) else none

/-- Accumulating decimal parse of a digit string. -/
def parseDigitsAux : List Char → Nat → Option Nat
  | [], acc => some acc
  | c :: rest, acc =>
    match digitVal c with
    | some d => parseDigitsAux rest (acc * 10 + d)
    | none => none

/-- Decimal parse requiring at least one digit. -/
def parseDigits : List Char → Option Nat
  | [] => none
  | l => parseDigitsAux l 0

/-- `strconv.Atoi` (as called at `main.go` line 328): optional single
sign, then one or more decimal digits, value within the signed 64-bit
range of Go's `int`; anything else is an error (`none`). -/
def atoi (s : List Char) : Option Int :=
  match s with
  | '+' :: rest =>
    (parseDigits rest).bind
      (fun n => if n ≤ 2 ^ 63 - 1 then some (n : Int) else none)
  | '-' :: rest =>
    (parseDigits rest).bind
      (fun n => if n ≤ 2 ^ 63 then some (-(n : Int)) else none)
  | _ =>
    (parseDigits s).bind
      (fun n => if n ≤ 2 ^ 63 - 1 then some (n : Int) else none)

/-- The platform web-root of `crackPRInfo` (`main.go` line 319), as a
character list. -/
def ghRoot : List Char := "https://github.com/".toList

/-- Character-list body of `crackPRInfo` (`main.go` lines 318-337):
check the web-root, trim it, split the remainder on `/`, require at
least four segments, parse the fourth as an integer; every
`log.Fatalf` path is `none`. -/
def crackL (u : List Char) : Option prInfo :=
  if ghRoot.isPrefixOf u then
    (let splits := splitChar '/' (u.drop ghRoot.length)
     if 4 ≤ splits.length then
       match atoi (splits.getD 3 []) with
       | some n =>
         some { owner := String.mk (splits.getD 0 []),
                repo := String.mk (splits.getD 1 []),
                number := n }
       | none => none
     else none)
  else none

/-- `crackPRInfo` (`main.go` lines 318-337) on strings. -/
def crackPRInfo (url : String) : Option prInfo :=
  crackL url.toList

/-- Replace every tab by four spaces in a character list, embedding
`strings.Replace(s, "\t", "    ", -1)` (`main.go` line 188; with a
one-character pattern, global replacement is a per-character map). -/
def replaceTabsL : List Char → List Char
  | [] => []
  | c :: rest =>
    if c = '\t' then ' ' :: ' ' :: ' ' :: ' ' :: replaceTabsL rest
    else c :: replaceTabsL rest

/-- String-level wrapper of `replaceTabsL`. -/
def replaceTabs (s : String) : String :=
  String.mk (replaceTabsL s.toList)

/-- Join character lists with a separator list, embedding
`strings.Join` (`main.go` line 187). -/
def joinSep (sep : List Char) : List (List Char) → List Char
  | [] => []
  | [s] => s
  | s :: rest => s ++ sep ++ joinSep sep rest

/-- `strings.Join(lines, "\n")` on strings. -/
def joinLines (lines : List String) : String :=
  String.mk (joinSep ['\n'] (lines.map String.toList))

/-- `printSection` (`main.go` lines 192-206): an empty section yields
nothing; a non-empty one yields its tab-indented title then one
doubly-tab-indented line per member that has a registered name (a
member without a name is only logged). -/
def printSection (names : List (Url × String)) (sec : List Url)
    (title : String) : List String :=
  if sec.length > 0 then
    ("\t* " ++ title) ::
      sec.filterMap (fun u => (findName names u).map (fun n => "\t\t* " ++ n))
  else []

/-- `(*eventSets).markdown` (`main.go` lines 177-190): the fixed
heading, the six sections in order, joined by newlines, tabs expanded
to four spaces. -/
def markdown (e : eventSets) : String :=
  let md := "* GitHub" ::
    (printSection e.names e.merged "Merged" ++
     printSection e.names e.abandoned "Abandoned" ++
     printSection e.names e.underReview "Under Review" ++
     printSection e.names e.inProgress "In Progress" ++
     printSection e.names e.reviewed "Reviewed" ++
     printSection e.names e.issues "Issues")
  replaceTabs (joinLines md)

/-! ### Association-list map lemmas -/

theorem findName_setName (names : List (Url × String)) (u k : Url)
    (v : String) :
    findName (setName names u v) k = if u = k then some v else findName names k := by
  induction names with
  | nil => simp [setName, findName]
  | cons p rest ih =>
    obtain ⟨pk, pv⟩ := p
    by_cases hpu : pk = u
    · subst hpu
      by_cases hk : pk = k <;> simp [setName, findName, hk]
    · by_cases hk : pk = k
      · subst hk
        simp [setName, findName, hpu, Ne.symm hpu]
      · simp [setName, findName, hpu, hk, ih]

theorem addName_of_present (names : List (Url × String)) (n : Nameable)
    (h : (findName names n.htmlURL).isSome) : addName names n = names := by
  unfold addName
  cases hf : findName names n.htmlURL with
  | none => rw [hf] at h; simp at h
  | some v => rfl

theorem foldl_addName_of_present (l : List Nameable)
    (names : List (Url × String)) (u : Url)
    (hl : ∀ n ∈ l, n.htmlURL = u)
    (hp : (findName names u).isSome) :
    l.foldl addName names = names := by
  induction l with
  | nil => rfl
  | cons n rest ih =>
    have hn : n.htmlURL = u := hl n (List.mem_cons_self _ _)
    have step : addName names n = names := by
      apply addName_of_present
      rw [hn]
      exact hp
    simp only [List.foldl_cons, step]
    exact ih (fun m hm => hl m (List.mem_cons_of_mem _ hm))

/-- C5: for a sequence of events all referencing the same identifier,
processed in order from a registry not yet containing it, the stored
display name is the formatted label of the first event's title, and
`addName` is a no-op whenever the identifier is already present. -/
theorem c5_first_event_wins
    (first : Nameable) (rest : List Nameable) (u : Url)
    (names0 : List (Url × String))
    (hfirst : first.htmlURL = u)
    (hrest : ∀ n ∈ rest, n.htmlURL = u)
    (habsent : findName names0 u = none) :
    findName ((first :: rest).foldl addName names0) u
      = some (formatName first.title u)
    ∧ ∀ (names : List (Url × String)) (n : Nameable),
        (findName names n.htmlURL).isSome → addName names n = names := by
  constructor
  · have step1 : addName names0 first
        = setName names0 u (formatName first.title u) := by
      unfold addName overrideName
      rw [hfirst, habsent]
    have hmem : findName (setName names0 u (formatName first.title u)) u
        = some (formatName first.title u) := by
      rw [findName_setName]; simp
    simp only [List.foldl_cons, step1]
    rw [foldl_addName_of_present rest _ u hrest (by rw [hmem]; simp)]
    exact hmem
  · exact addName_of_present

theorem c5_first_event_wins_witness :
    findName (([⟨"A", "u1"⟩, ⟨"B", "u1"⟩] : List Nameable).foldl addName []) "u1"
      = some (formatName "A" "u1")
    ∧ ∀ (names : List (Url × String)) (n : Nameable),
        (findName names n.htmlURL).isSome → addName names n = names :=
  c5_first_event_wins ⟨"A", "u1"⟩ [⟨"B", "u1"⟩] "u1" [] rfl
    (by simp) rfl

/-! ### Classification conditions and fold characterizations -/

/-- Guard of the `reviewed` branch of `makeEventSets`. -/
def condReviewed (user : String) (pr : PullRequest) : Prop :=
  pr.userLogin ≠ user

/-- Guard of the `inProgress` branch of `makeEventSets`. -/
def condInProgress (user : String) (pr : PullRequest) : Prop :=
  pr.userLogin = user ∧ pr.state = "open" ∧ isWorkInProgress pr.labels = true

/-- Guard of the `underReview` branch of `makeEventSets`. -/
def condUnderReview (user : String) (pr : PullRequest) : Prop :=
  pr.userLogin = user ∧ pr.state = "open" ∧ isWorkInProgress pr.labels = false

/-- Guard of the `merged` branch of `makeEventSets`. -/
def condMerged (user : String) (pr : PullRequest) : Prop :=
  pr.userLogin = user ∧ pr.state ≠ "open" ∧ pr.state = "closed" ∧
    pr.merged = true

/-- Guard of the `abandoned` branch of `makeEventSets`. -/
def condAbandoned (user : String) (pr : PullRequest) : Prop :=
  pr.userLogin = user ∧ pr.state ≠ "open" ∧ pr.state = "closed" ∧
    pr.merged = false

theorem mem_insertUrl (s : List Url) (u v : Url) :
    v ∈ insertUrl s u ↔ u = v ∨ v ∈ s := by
  unfold insertUrl
  by_cases h : u ∈ s
  · simp only [if_pos h]
    constructor
    · exact Or.inr
    · rintro (rfl | hv)
      · exact h
      · exact hv
  · simp only [if_neg h, List.mem_cons]
    constructor
    · rintro (rfl | hv)
      · exact Or.inl rfl
      · exact Or.inr hv
    · rintro (rfl | hv)
      · exact Or.inl rfl
      · exact Or.inr hv

theorem prStep_mem_reviewed (user : String) (es : eventSets)
    (p : Url × PullRequest) (u : Url) :
    u ∈ (prStep user es p).reviewed ↔
      (p.1 = u ∧ condReviewed user p.2) ∨ u ∈ es.reviewed := by
  unfold prStep condReviewed
  split_ifs with h1 h2 h3 h4 h5 <;> (try dsimp only) <;>
    (try rw [mem_insertUrl]) <;> simp_all

theorem prStep_mem_inProgress (user : String) (es : eventSets)
    (p : Url × PullRequest) (u : Url) :
    u ∈ (prStep user es p).inProgress ↔
      (p.1 = u ∧ condInProgress user p.2) ∨ u ∈ es.inProgress := by
  unfold prStep condInProgress
  split_ifs with h1 h2 h3 h4 h5 <;> (try dsimp only) <;>
    (try rw [mem_insertUrl]) <;> simp_all

theorem prStep_mem_underReview (user : String) (es : eventSets)
    (p : Url × PullRequest) (u : Url) :
    u ∈ (prStep user es p).underReview ↔
      (p.1 = u ∧ condUnderReview user p.2) ∨ u ∈ es.underReview := by
  unfold prStep condUnderReview
  split_ifs with h1 h2 h3 h4 h5 <;> (try dsimp only) <;>
    (try rw [mem_insertUrl]) <;> simp_all

theorem prStep_mem_merged (user : String) (es : eventSets)
    (p : Url × PullRequest) (u : Url) :
    u ∈ (prStep user es p).merged ↔
      (p.1 = u ∧ condMerged user p.2) ∨ u ∈ es.merged := by
  unfold prStep condMerged
  split_ifs with h1 h2 h3 h4 h5 <;> (try dsimp only) <;>
    (try rw [mem_insertUrl]) <;> simp_all

theorem prStep_mem_abandoned (user : String) (es : eventSets)
    (p : Url × PullRequest) (u : Url) :
    u ∈ (prStep user es p).abandoned ↔
      (p.1 = u ∧ condAbandoned user p.2) ∨ u ∈ es.abandoned := by
  unfold prStep condAbandoned
  split_ifs with h1 h2 h3 h4 h5 <;> (try dsimp only) <;>
    (try rw [mem_insertUrl]) <;> simp_all

theorem prStep_issues (user : String) (es : eventSets)
    (p : Url × PullRequest) : (prStep user es p).issues = es.issues := by
  unfold prStep
  split_ifs <;> rfl

theorem foldl_prStep_reviewed (user : String)
    (l : List (Url × PullRequest)) (es : eventSets) (u : Url) :
    u ∈ (l.foldl (prStep user) es).reviewed ↔
      (∃ p ∈ l, p.1 = u ∧ condReviewed user p.2) ∨ u ∈ es.reviewed := by
  induction l generalizing es with
  | nil => simp
  | cons p rest ih =>
    rw [List.foldl_cons, ih, prStep_mem_reviewed]
    simp only [List.exists_mem_cons_iff]
    rw [or_assoc]
    exact or_left_comm

theorem foldl_prStep_inProgress (user : String)
    (l : List (Url × PullRequest)) (es : eventSets) (u : Url) :
    u ∈ (l.foldl (prStep user) es).inProgress ↔
      (∃ p ∈ l, p.1 = u ∧ condInProgress user p.2) ∨ u ∈ es.inProgress := by
  induction l generalizing es with
  | nil => simp
  | cons p rest ih =>
    rw [List.foldl_cons, ih, prStep_mem_inProgress]
    simp only [List.exists_mem_cons_iff]
    rw [or_assoc]
    exact or_left_comm

theorem foldl_prStep_underReview (user : String)
    (l : List (Url × PullRequest)) (es : eventSets) (u : Url) :
    u ∈ (l.foldl (prStep user) es).underReview ↔
      (∃ p ∈ l, p.1 = u ∧ condUnderReview user p.2) ∨ u ∈ es.underReview := by
  induction l generalizing es with
  | nil => simp
  | cons p rest ih =>
    rw [List.foldl_cons, ih, prStep_mem_underReview]
    simp only [List.exists_mem_cons_iff]
    rw [or_assoc]
    exact or_left_comm

theorem foldl_prStep_merged (user : String)
    (l : List (Url × PullRequest)) (es : eventSets) (u : Url) :
    u ∈ (l.foldl (prStep user) es).merged ↔
      (∃ p ∈ l, p.1 = u ∧ condMerged user p.2) ∨ u ∈ es.merged := by
  induction l generalizing es with
  | nil => simp
  | cons p rest ih =>
    rw [List.foldl_cons, ih, prStep_mem_merged]
    simp only [List.exists_mem_cons_iff]
    rw [or_assoc]
    exact or_left_comm

theorem foldl_prStep_abandoned (user : String)
    (l : List (Url × PullRequest)) (es : eventSets) (u : Url) :
    u ∈ (l.foldl (prStep user) es).abandoned ↔
      (∃ p ∈ l, p.1 = u ∧ condAbandoned user p.2) ∨ u ∈ es.abandoned := by
  induction l generalizing es with
  | nil => simp
  | cons p rest ih =>
    rw [List.foldl_cons, ih, prStep_mem_abandoned]
    simp only [List.exists_mem_cons_iff]
    rw [or_assoc]
    exact or_left_comm

theorem foldl_prStep_issues (user : String)
    (l : List (Url × PullRequest)) (es : eventSets) :
    (l.foldl (prStep user) es).issues = es.issues := by
  induction l generalizing es with
  | nil => rfl
  | cons p rest ih => rw [List.foldl_cons, ih, prStep_issues]

theorem issueStep_others (es : eventSets) (u : Url) :
    (issueStep es u).merged = es.merged ∧
    (issueStep es u).abandoned = es.abandoned ∧
    (issueStep es u).underReview = es.underReview ∧
    (issueStep es u).inProgress = es.inProgress ∧
    (issueStep es u).reviewed = es.reviewed :=
  ⟨rfl, rfl, rfl, rfl, rfl⟩

theorem foldl_issueStep_others (l : List Url) (es : eventSets) :
    (l.foldl issueStep es).merged = es.merged ∧
    (l.foldl issueStep es).abandoned = es.abandoned ∧
    (l.foldl issueStep es).underReview = es.underReview ∧
    (l.foldl issueStep es).inProgress = es.inProgress ∧
    (l.foldl issueStep es).reviewed = es.reviewed := by
  induction l generalizing es with
  | nil => exact ⟨rfl, rfl, rfl, rfl, rfl⟩
  | cons v rest ih => 
    rw [List.foldl_cons]
    exact ih (issueStep es v)

theorem foldl_issueStep_issues (l : List Url) (es : eventSets) (u : Url) :
    u ∈ (l.foldl issueStep es).issues ↔ u ∈ l ∨ u ∈ es.issues := by
  induction l generalizing es with
  | nil => simp
  | cons v rest ih =>
    rw [List.foldl_cons, ih]
    unfold issueStep
    dsimp only
    rw [mem_insertUrl]
    simp only [List.mem_cons]
    constructor
    · rintro (h | rfl | h)
      · exact Or.inl (Or.inr h)
      · exact Or.inl (Or.inl rfl)
      · exact Or.inr h
    · rintro ((rfl | h) | h)
      · exact Or.inr (Or.inl rfl)
      · exact Or.inl h
      · exact Or.inr (Or.inr h)

/-! ### Reconciliation lemmas -/

theorem getPRsAux_acc_mono (fetch : prInfo → Option PullRequest)
    (l : List (Url × prInfo)) :
    ∀ (names : List (Url × String)) (acc : List (Url × PullRequest))
      names2 acc2 (x : Url × PullRequest),
      getPRsAux fetch l names acc = some (names2, acc2) → x ∈ acc → x ∈ acc2 := by
  induction l with
  | nil =>
    intro names acc names2 acc2 x h hx
    simp only [getPRsAux, Option.some.injEq, Prod.mk.injEq] at h
    rw [← h.2]
    exact hx
  | cons p rest ih =>
    obtain ⟨u, info⟩ := p
    intro names acc names2 acc2 x h hx
    simp only [getPRsAux] at h
    cases hf : fetch info with
    | none => rw [hf] at h; exact Option.noConfusion h
    | some newPR =>
      rw [hf] at h
      exact ih _ _ _ _ x h (List.mem_append_left _ hx)

theorem getPRsAux_mem (fetch : prInfo → Option PullRequest)
    (l : List (Url × prInfo)) :
    ∀ names acc names2 acc2 (u : Url) (info : prInfo) (pr : PullRequest),
      getPRsAux fetch l names acc = some (names2, acc2) →
      (u, info) ∈ l → fetch info = some pr → (u, pr) ∈ acc2 := by
  induction l with
  | nil =>
    intro _ _ _ _ _ _ _ _ hmem _
    cases hmem
  | cons p rest ih =>
    obtain ⟨v, vinfo⟩ := p
    intro names acc names2 acc2 u info pr h hmem hf
    simp only [getPRsAux] at h
    cases hfv : fetch vinfo with
    | none => rw [hfv] at h; exact Option.noConfusion h
    | some newPR =>
      rw [hfv] at h
      rcases List.mem_cons.mp hmem with heq | hmem2
      · injection heq with h1 h2
        subst h1
        subst h2
        rw [hf] at hfv
        injection hfv with h3
        subst h3
        exact getPRsAux_acc_mono fetch rest _ _ _ _ _ h (by simp)
      · exact ih _ _ _ _ u info pr h hmem2 hf

theorem getPRsAux_names_other (fetch : prInfo → Option PullRequest)
    (l : List (Url × prInfo)) :
    ∀ names acc names2 acc2 (u : Url),
      getPRsAux fetch l names acc = some (names2, acc2) →
      u ∉ l.map Prod.fst → findName names2 u = findName names u := by
  induction l with
  | nil =>
    intro names acc names2 acc2 u h _
    simp only [getPRsAux, Option.some.injEq, Prod.mk.injEq] at h
    rw [← h.1]
  | cons p rest ih =>
    obtain ⟨v, vinfo⟩ := p
    intro names acc names2 acc2 u h hnot
    simp only [getPRsAux] at h
    simp only [List.map_cons, List.mem_cons, not_or] at hnot
    obtain ⟨hne, hnotrest⟩ := hnot
    cases hfv : fetch vinfo with
    | none => rw [hfv] at h; exact Option.noConfusion h
    | some newPR =>
      rw [hfv] at h
      rw [ih _ _ _ _ u h hnotrest, findName_setName]
      rw [if_neg (Ne.symm hne)]

theorem getPRsAux_names_override (fetch : prInfo → Option PullRequest)
    (l : List (Url × prInfo)) :
    ∀ names acc names2 acc2 (u : Url) (info : prInfo) (pr : PullRequest),
      (l.map Prod.fst).Nodup →
      getPRsAux fetch l names acc = some (names2, acc2) →
      (u, info) ∈ l → fetch info = some pr →
      findName names2 u = some (formatName pr.title pr.htmlURL) := by
  induction l with
  | nil =>
    intro _ _ _ _ _ _ _ _ _ hmem _
    cases hmem
  | cons p rest ih =>
    obtain ⟨v, vinfo⟩ := p
    intro names acc names2 acc2 u info pr hnodup h hmem hf
    simp only [getPRsAux] at h
    simp only [List.map_cons, List.nodup_cons] at hnodup
    obtain ⟨hvnot, hnodup2⟩ := hnodup
    cases hfv : fetch vinfo with
    | none => rw [hfv] at h; exact Option.noConfusion h
    | some newPR =>
      rw [hfv] at h
      rcases List.mem_cons.mp hmem with heq | hmem2
      · injection heq with h1 h2
        subst h1
        subst h2
        rw [hf] at hfv
        injection hfv with h3
        subst h3
        rw [getPRsAux_names_other fetch rest _ _ _ _ _ h hvnot,
          findName_setName]
        simp
      · exact ih _ _ _ _ u info pr hnodup2 h hmem2 hf

theorem getPRsAux_keys (fetch : prInfo → Option PullRequest)
    (l : List (Url × prInfo)) :
    ∀ names acc names2 acc2,
      getPRsAux fetch l names acc = some (names2, acc2) →
      acc2.map Prod.fst = acc.map Prod.fst ++ l.map Prod.fst := by
  induction l with
  | nil =>
    intro names acc names2 acc2 h
    simp only [getPRsAux, Option.some.injEq, Prod.mk.injEq] at h
    rw [← h.2]
    simp
  | cons p rest ih =>
    obtain ⟨v, vinfo⟩ := p
    intro names acc names2 acc2 h
    simp only [getPRsAux] at h
    cases hfv : fetch vinfo with
    | none => rw [hfv] at h; exact Option.noConfusion h
    | some newPR =>
      rw [hfv] at h
      rw [ih _ _ _ _ h]
      simp

theorem nodupKeys_eq {α β : Type} (l : List (α × β))
    (hn : (l.map Prod.fst).Nodup) (a : α) (b1 b2 : β)
    (h1 : (a, b1) ∈ l) (h2 : (a, b2) ∈ l) : b1 = b2 := by
  induction l with
  | nil => cases h1
  | cons p rest ih =>
    simp only [List.map_cons, List.nodup_cons] at hn
    rcases List.mem_cons.mp h1 with e1 | m1
    · rcases List.mem_cons.mp h2 with e2 | m2
      · have e3 : (a, b1) = (a, b2) := e1.trans e2.symm
        exact congrArg Prod.snd e3
      · exfalso
        apply hn.1
        have hp : p.1 = a := by rw [← e1]
        rw [hp]
        exact List.mem_map_of_mem Prod.fst m2
    · rcases List.mem_cons.mp h2 with e2 | m2
      · exfalso
        apply hn.1
        have hp : p.1 = a := by rw [← e2]
        rw [hp]
        exact List.mem_map_of_mem Prod.fst m1
      · exact ih hn.2 m1 m2

theorem isWorkInProgress_iff (labels : List Label) :
    isWorkInProgress labels = true ↔
      ∃ l ∈ labels, l.name = "do-not-merge/work-in-progress" := by
  simp [isWorkInProgress, List.any_eq_true]

theorem makeEventSets_cases (user : String)
    (fetch : prInfo → Option PullRequest) (e : issuesAndPRs)
    (es : eventSets) (hmk : makeEventSets user fetch e = some es) :
    ∃ names2 newPRs, getPRs fetch e = some (names2, newPRs) ∧
      es = e.issues.foldl issueStep (newPRs.foldl (prStep user)
        { names := names2, merged := [], abandoned := [], underReview := [],
          inProgress := [], reviewed := [], issues := [] }) := by
  unfold makeEventSets at hmk
  cases hget : getPRs fetch e with
  | none => rw [hget] at hmk; exact Option.noConfusion hmk
  | some pair =>
    obtain ⟨names2, newPRs⟩ := pair
    rw [hget] at hmk
    injection hmk with hes
    exact ⟨names2, newPRs, rfl, hes.symm⟩

/-- C2: a pull-request reference whose freshly fetched author is not
the acting user is placed in `reviewed` by reconciliation, whatever its
state, merged flag or labels. -/
theorem c2_foreign_author_reviewed (user : String)
    (fetch : prInfo → Option PullRequest) (e : issuesAndPRs)
    (u : Url) (info : prInfo) (pr : PullRequest) (es : eventSets)
    (hmk : makeEventSets user fetch e = some es)
    (hmem : (u, info) ∈ e.prs)
    (hfetch : fetch info = some pr)
    (hauthor : pr.userLogin ≠ user) :
    u ∈ es.reviewed := by
  obtain ⟨names2, newPRs, hget, hes⟩ := makeEventSets_cases user fetch e es hmk
  have hget2 : getPRsAux fetch e.prs e.names [] = some (names2, newPRs) := hget
  have hnew : (u, pr) ∈ newPRs :=
    getPRsAux_mem fetch e.prs _ _ _ _ u info pr hget2 hmem hfetch
  rw [hes, (foldl_issueStep_others e.issues _).2.2.2.2, foldl_prStep_reviewed]
  exact Or.inl ⟨(u, pr), hnew, rfl, hauthor⟩

def prW2 : PullRequest :=
  { userLogin := "other", state := "open", merged := false, labels := [],
    title := "T2", htmlURL := "https://github.com/o/r/pull/2" }

def eW2 : issuesAndPRs :=
  { names := [], issues := [],
    prs := [("https://github.com/o/r/pull/2", ⟨"o", "r", 2⟩)] }

def fetchW2 : prInfo → Option PullRequest := fun _ => some prW2

/-- The all-empty `eventSets`, used as a default for `Option.getD`. -/
def esD : eventSets :=
  { names := [], merged := [], abandoned := [], underReview := [],
    inProgress := [], reviewed := [], issues := [] }

theorem c2_foreign_author_reviewed_witness :
    "https://github.com/o/r/pull/2" ∈
      ((makeEventSets "Harwayne" fetchW2 eW2).getD esD).reviewed :=
  c2_foreign_author_reviewed "Harwayne" fetchW2 eW2
    "https://github.com/o/r/pull/2" ⟨"o", "r", 2⟩ prW2
    ((makeEventSets "Harwayne" fetchW2 eW2).getD esD)
    (by decide) (by decide) (by decide) (by decide)

/-- C3: a self-authored pull request fetched in state `"open"` goes to
`inProgress` when its fetched labels contain the WIP label
`do-not-merge/work-in-progress`, and to `underReview` otherwise. -/
theorem c3_wip_detection (user : String)
    (fetch : prInfo → Option PullRequest) (e : issuesAndPRs)
    (u : Url) (info : prInfo) (pr : PullRequest) (es : eventSets)
    (hmk : makeEventSets user fetch e = some es)
    (hmem : (u, info) ∈ e.prs)
    (hfetch : fetch info = some pr)
    (hauthor : pr.userLogin = user)
    (hopen : pr.state = "open") :
    ((∃ l ∈ pr.labels, l.name = "do-not-merge/work-in-progress") →
        u ∈ es.inProgress) ∧
    ((¬ ∃ l ∈ pr.labels, l.name = "do-not-merge/work-in-progress") →
        u ∈ es.underReview) := by
  obtain ⟨names2, newPRs, hget, hes⟩ := makeEventSets_cases user fetch e es hmk
  have hget2 : getPRsAux fetch e.prs e.names [] = some (names2, newPRs) := hget
  have hnew : (u, pr) ∈ newPRs :=
    getPRsAux_mem fetch e.prs _ _ _ _ u info pr hget2 hmem hfetch
  constructor
  · intro hex
    rw [hes, (foldl_issueStep_others e.issues _).2.2.2.1,
      foldl_prStep_inProgress]
    exact Or.inl ⟨(u, pr), hnew, rfl, hauthor, hopen,
      (isWorkInProgress_iff _).mpr hex⟩
  · intro hnex
    rw [hes, (foldl_issueStep_others e.issues _).2.2.1,
      foldl_prStep_underReview]
    cases hw : isWorkInProgress pr.labels with
    | true => exact absurd ((isWorkInProgress_iff _).mp hw) hnex
    | false =>
      exact Or.inl ⟨(u, pr), hnew, rfl, hauthor, hopen, hw⟩

def lblWIP : Label := { name := "do-not-merge/work-in-progress" }

def prW3a : PullRequest :=
  { userLogin := "Harwayne", state := "open", merged := false,
    labels := [lblWIP], title := "T3", htmlURL := "https://github.com/o/r/pull/3" }

def prW3b : PullRequest :=
  { userLogin := "Harwayne", state := "open", merged := false,
    labels := [], title := "T3", htmlURL := "https://github.com/o/r/pull/3" }

def eW3 : issuesAndPRs :=
  { names := [], issues := [],
    prs := [("https://github.com/o/r/pull/3", ⟨"o", "r", 3⟩)] }

def fetchW3a : prInfo → Option PullRequest := fun _ => some prW3a

def fetchW3b : prInfo → Option PullRequest := fun _ => some prW3b

theorem c3_wip_detection_witness :
    "https://github.com/o/r/pull/3" ∈
      ((makeEventSets "Harwayne" fetchW3a eW3).getD esD).inProgress ∧
    "https://github.com/o/r/pull/3" ∈
      ((makeEventSets "Harwayne" fetchW3b eW3).getD esD).underReview :=
  ⟨(c3_wip_detection "Harwayne" fetchW3a eW3
      "https://github.com/o/r/pull/3" ⟨"o", "r", 3⟩ prW3a
      ((makeEventSets "Harwayne" fetchW3a eW3).getD esD)
      (by decide) (by decide) (by decide) (by decide) (by decide)).1
      (by decide),
   (c3_wip_detection "Harwayne" fetchW3b eW3
      "https://github.com/o/r/pull/3" ⟨"o", "r", 3⟩ prW3b
      ((makeEventSets "Harwayne" fetchW3b eW3).getD esD)
      (by decide) (by decide) (by decide) (by decide) (by decide)).2
      (by decide)⟩

/-- C4: a self-authored pull request fetched in state `"closed"` goes
to `merged` when the platform reports it merged and to `abandoned`
otherwise. -/
theorem c4_merge_resolution (user : String)
    (fetch : prInfo → Option PullRequest) (e : issuesAndPRs)
    (u : Url) (info : prInfo) (pr : PullRequest) (es : eventSets)
    (hmk : makeEventSets user fetch e = some es)
    (hmem : (u, info) ∈ e.prs)
    (hfetch : fetch info = some pr)
    (hauthor : pr.userLogin = user)
    (hclosed : pr.state = "closed") :
    (pr.merged = true → u ∈ es.merged) ∧
    (pr.merged = false → u ∈ es.abandoned) := by
  obtain ⟨names2, newPRs, hget, hes⟩ := makeEventSets_cases user fetch e es hmk
  have hget2 : getPRsAux fetch e.prs e.names [] = some (names2, newPRs) := hget
  have hnew : (u, pr) ∈ newPRs :=
    getPRsAux_mem fetch e.prs _ _ _ _ u info pr hget2 hmem hfetch
  have hne : pr.state ≠ "open" := by rw [hclosed]; decide
  constructor
  · intro hm
    rw [hes, (foldl_issueStep_others e.issues _).1, foldl_prStep_merged]
    exact Or.inl ⟨(u, pr), hnew, rfl, hauthor, hne, hclosed, hm⟩
  · intro hm
    rw [hes, (foldl_issueStep_others e.issues _).2.1, foldl_prStep_abandoned]
    exact Or.inl ⟨(u, pr), hnew, rfl, hauthor, hne, hclosed, hm⟩

def prW4a : PullRequest :=
  { userLogin := "Harwayne", state := "closed", merged := true,
    labels := [], title := "T4", htmlURL := "https://github.com/o/r/pull/4" }

def prW4b : PullRequest :=
  { userLogin := "Harwayne", state := "closed", merged := false,
    labels := [], title := "T4", htmlURL := "https://github.com/o/r/pull/4" }

def eW4 : issuesAndPRs :=
  { names := [], issues := [],
    prs := [("https://github.com/o/r/pull/4", ⟨"o", "r", 4⟩)] }

def fetchW4a : prInfo → Option PullRequest := fun _ => some prW4a

def fetchW4b : prInfo → Option PullRequest := fun _ => some prW4b

theorem c4_merge_resolution_witness :
    "https://github.com/o/r/pull/4" ∈
      ((makeEventSets "Harwayne" fetchW4a eW4).getD esD).merged ∧
    "https://github.com/o/r/pull/4" ∈
      ((makeEventSets "Harwayne" fetchW4b eW4).getD esD).abandoned :=
  ⟨(c4_merge_resolution "Harwayne" fetchW4a eW4
      "https://github.com/o/r/pull/4" ⟨"o", "r", 4⟩ prW4a
      ((makeEventSets "Harwayne" fetchW4a eW4).getD esD)
      (by decide) (by decide) (by decide) (by decide) (by decide)).1
      (by decide),
   (c4_merge_resolution "Harwayne" fetchW4b eW4
      "https://github.com/o/r/pull/4" ⟨"o", "r", 4⟩ prW4b
      ((makeEventSets "Harwayne" fetchW4b eW4).getD esD)
      (by decide) (by decide) (by decide) (by decide) (by decide)).2
      (by decide)⟩

/-- C7: for every pull-request reference successfully queried during
reconciliation, the registry entry of its identifier ends up
unconditionally overwritten with the label formatted from the freshly
fetched title and URL. -/
theorem c7_fetched_title_overrides (fetch : prInfo → Option PullRequest)
    (e : issuesAndPRs) (names2 : List (Url × String))
    (newPRs : List (Url × PullRequest))
    (u : Url) (info : prInfo) (pr : PullRequest)
    (hnodup : (e.prs.map Prod.fst).Nodup)
    (hget : getPRs fetch e = some (names2, newPRs))
    (hmem : (u, info) ∈ e.prs)
    (hfetch : fetch info = some pr) :
    findName names2 u = some (formatName pr.title pr.htmlURL) :=
  getPRsAux_names_override fetch e.prs e.names [] names2 newPRs u info pr
    hnodup hget hmem hfetch

def prW7 : PullRequest :=
  { userLogin := "Harwayne", state := "open", merged := false,
    labels := [], title := "New",
    htmlURL := "https://github.com/o/r/pull/7" }

def eW7 : issuesAndPRs :=
  { names := [("https://github.com/o/r/pull/7", "old")], issues := [],
    prs := [("https://github.com/o/r/pull/7", ⟨"o", "r", 7⟩)] }

def fetchW7 : prInfo → Option PullRequest := fun _ => some prW7

theorem c7_fetched_title_overrides_witness :
    findName ((getPRs fetchW7 eW7).getD ([], [])).1
        "https://github.com/o/r/pull/7"
      = some (formatName "New" "https://github.com/o/r/pull/7") :=
  c7_fetched_title_overrides fetchW7 eW7
    ((getPRs fetchW7 eW7).getD ([], [])).1
    ((getPRs fetchW7 eW7).getD ([], [])).2
    "https://github.com/o/r/pull/7" ⟨"o", "r", 7⟩ prW7
    (by decide) (by decide) (by decide) (by decide)

theorem exists_pair_mem {β : Type} (l : List (Url × β)) (u : Url)
    (P : β → Prop) :
    (∃ p ∈ l, p.1 = u ∧ P p.2) ↔ ∃ b, (u, b) ∈ l ∧ P b := by
  constructor
  · rintro ⟨⟨u1, b⟩, hm, hk, hP⟩
    obtain rfl : u1 = u := hk
    exact ⟨b, hm, hP⟩
  · rintro ⟨b, hm, hP⟩
    exact ⟨(u, b), hm, rfl, hP⟩

/-- C1 (amended): with the discovered collection well formed (unique
pull-request keys, plain issues disjoint from pull-request references),
the six category sets are pairwise disjoint and their union is the set
of discovered identifiers minus those pull requests *authored by the
acting user* whose fetched state is neither "open" nor "closed" (a
foreign-authored pull request is `reviewed` whatever its state). -/
theorem c1_partition (user : String)
    (fetch : prInfo → Option PullRequest) (e : issuesAndPRs)
    (names2 : List (Url × String)) (newPRs : List (Url × PullRequest))
    (es : eventSets)
    (hnodup : (e.prs.map Prod.fst).Nodup)
    (hdisj : ∀ u ∈ e.issues, u ∉ e.prs.map Prod.fst)
    (hget : getPRs fetch e = some (names2, newPRs))
    (hmk : makeEventSets user fetch e = some es) :
    ([es.merged, es.abandoned, es.underReview, es.inProgress,
      es.reviewed, es.issues].Pairwise List.Disjoint) ∧
    (∀ u : Url,
      (u ∈ es.merged ∨ u ∈ es.abandoned ∨ u ∈ es.underReview ∨
       u ∈ es.inProgress ∨ u ∈ es.reviewed ∨ u ∈ es.issues) ↔
      ((u ∈ e.issues ∨ u ∈ newPRs.map Prod.fst) ∧
       ¬ ∃ pr : PullRequest, (u, pr) ∈ newPRs ∧ pr.userLogin = user ∧
           pr.state ≠ "open" ∧ pr.state ≠ "closed")) := by
  have hes : es = e.issues.foldl issueStep (newPRs.foldl (prStep user)
      { names := names2, merged := [], abandoned := [], underReview := [],
        inProgress := [], reviewed := [], issues := [] }) := by
    unfold makeEventSets at hmk
    rw [hget] at hmk
    injection hmk with h
    exact h.symm
  have hkeys : newPRs.map Prod.fst = e.prs.map Prod.fst := by
    have h := getPRsAux_keys fetch e.prs e.names [] names2 newPRs hget
    simpa using h
  have hnodup2 : (newPRs.map Prod.fst).Nodup := by rw [hkeys]; exact hnodup
  have hfun : ∀ (u : Url) (pr1 pr2 : PullRequest),
      (u, pr1) ∈ newPRs → (u, pr2) ∈ newPRs → pr1 = pr2 :=
    fun u pr1 pr2 h1 h2 => nodupKeys_eq newPRs hnodup2 u pr1 pr2 h1 h2
  have hmem_merged : ∀ u, u ∈ es.merged ↔
      ∃ pr, (u, pr) ∈ newPRs ∧ condMerged user pr := by
    intro u
    rw [hes, (foldl_issueStep_others e.issues _).1, foldl_prStep_merged,
      exists_pair_mem newPRs u (condMerged user)]
    simp
  have hmem_abandoned : ∀ u, u ∈ es.abandoned ↔
      ∃ pr, (u, pr) ∈ newPRs ∧ condAbandoned user pr := by
    intro u
    rw [hes, (foldl_issueStep_others e.issues _).2.1, foldl_prStep_abandoned,
      exists_pair_mem newPRs u (condAbandoned user)]
    simp
  have hmem_underReview : ∀ u, u ∈ es.underReview ↔
      ∃ pr, (u, pr) ∈ newPRs ∧ condUnderReview user pr := by
    intro u
    rw [hes, (foldl_issueStep_others e.issues _).2.2.1,
      foldl_prStep_underReview,
      exists_pair_mem newPRs u (condUnderReview user)]
    simp
  have hmem_inProgress : ∀ u, u ∈ es.inProgress ↔
      ∃ pr, (u, pr) ∈ newPRs ∧ condInProgress user pr := by
    intro u
    rw [hes, (foldl_issueStep_others e.issues _).2.2.2.1,
      foldl_prStep_inProgress,
      exists_pair_mem newPRs u (condInProgress user)]
    simp
  have hmem_reviewed : ∀ u, u ∈ es.reviewed ↔
      ∃ pr, (u, pr) ∈ newPRs ∧ condReviewed user pr := by
    intro u
    rw [hes, (foldl_issueStep_others e.issues _).2.2.2.2,
      foldl_prStep_reviewed,
      exists_pair_mem newPRs u (condReviewed user)]
    simp
  have hmem_issues : ∀ u, u ∈ es.issues ↔ u ∈ e.issues := by
    intro u
    rw [hes, foldl_issueStep_issues, foldl_prStep_issues]
    simp
  have hPR : ∀ (P Q : PullRequest → Prop) (A B : List Url),
      (∀ u, u ∈ A ↔ ∃ pr, (u, pr) ∈ newPRs ∧ P pr) →
      (∀ u, u ∈ B ↔ ∃ pr, (u, pr) ∈ newPRs ∧ Q pr) →
      (∀ pr, P pr → Q pr → False) →
      A.Disjoint B := by
    intro P Q A B hA hB hPQ u huA huB
    obtain ⟨pr1, hm1, hc1⟩ := (hA u).mp huA
    obtain ⟨pr2, hm2, hc2⟩ := (hB u).mp huB
    rw [← hfun u pr1 pr2 hm1 hm2] at hc2
    exact hPQ pr1 hc1 hc2
  have hIss : ∀ (P : PullRequest → Prop) (A : List Url),
      (∀ u, u ∈ A ↔ ∃ pr, (u, pr) ∈ newPRs ∧ P pr) →
      A.Disjoint es.issues := by
    intro P A hA u huA huI
    obtain ⟨pr1, hm1, hc1⟩ := (hA u).mp huA
    exact hdisj u ((hmem_issues u).mp huI)
      (hkeys ▸ List.mem_map_of_mem Prod.fst hm1)
  constructor
  · refine List.Pairwise.cons ?_ (List.Pairwise.cons ?_ (List.Pairwise.cons ?_
      (List.Pairwise.cons ?_ (List.Pairwise.cons ?_ (List.Pairwise.cons ?_
        List.Pairwise.nil)))))
    · intro x hx
      simp only [List.mem_cons, List.not_mem_nil, or_false] at hx
      rcases hx with rfl | rfl | rfl | rfl | rfl
      · exact hPR _ _ _ _ hmem_merged hmem_abandoned
          (by rintro pr ⟨_, _, _, h1⟩ ⟨_, _, _, h2⟩; rw [h1] at h2; cases h2)
      · exact hPR _ _ _ _ hmem_merged hmem_underReview
          (by rintro pr ⟨_, h1, _, _⟩ ⟨_, h2, _⟩; exact h1 h2)
      · exact hPR _ _ _ _ hmem_merged hmem_inProgress
          (by rintro pr ⟨_, h1, _, _⟩ ⟨_, h2, _⟩; exact h1 h2)
      · exact hPR _ _ _ _ hmem_merged hmem_reviewed
          (by rintro pr ⟨h1, _, _, _⟩ h2; exact h2 h1)
      · exact hIss _ _ hmem_merged
    · intro x hx
      simp only [List.mem_cons, List.not_mem_nil, or_false] at hx
      rcases hx with rfl | rfl | rfl | rfl
      · exact hPR _ _ _ _ hmem_abandoned hmem_underReview
          (by rintro pr ⟨_, h1, _, _⟩ ⟨_, h2, _⟩; exact h1 h2)
      · exact hPR _ _ _ _ hmem_abandoned hmem_inProgress
          (by rintro pr ⟨_, h1, _, _⟩ ⟨_, h2, _⟩; exact h1 h2)
      · exact hPR _ _ _ _ hmem_abandoned hmem_reviewed
          (by rintro pr ⟨h1, _, _, _⟩ h2; exact h2 h1)
      · exact hIss _ _ hmem_abandoned
    · intro x hx
      simp only [List.mem_cons, List.not_mem_nil, or_false] at hx
      rcases hx with rfl | rfl | rfl
      · exact hPR _ _ _ _ hmem_underReview hmem_inProgress
          (by rintro pr ⟨_, _, h1⟩ ⟨_, _, h2⟩; rw [h2] at h1; cases h1)
      · exact hPR _ _ _ _ hmem_underReview hmem_reviewed
          (by rintro pr ⟨h1, _, _⟩ h2; exact h2 h1)
      · exact hIss _ _ hmem_underReview
    · intro x hx
      simp only [List.mem_cons, List.not_mem_nil, or_false] at hx
      rcases hx with rfl | rfl
      · exact hPR _ _ _ _ hmem_inProgress hmem_reviewed
          (by rintro pr ⟨h1, _, _⟩ h2; exact h2 h1)
      · exact hIss _ _ hmem_inProgress
    · intro x hx
      simp only [List.mem_cons, List.not_mem_nil, or_false] at hx
      rcases hx with rfl
      exact hIss _ _ hmem_reviewed
    · intro x hx
      cases hx
  · intro u
    constructor
    · intro h6
      rcases h6 with h | h | h | h | h | h
      · obtain ⟨pr, hm, hu2, hno, hcl, hmg⟩ := (hmem_merged u).mp h
        refine ⟨Or.inr (List.mem_map_of_mem Prod.fst hm), ?_⟩
        rintro ⟨pr2, hm2, _, _, hc2⟩
        rw [← hfun u pr pr2 hm hm2] at hc2
        exact hc2 hcl
      · obtain ⟨pr, hm, hu2, hno, hcl, hmg⟩ := (hmem_abandoned u).mp h
        refine ⟨Or.inr (List.mem_map_of_mem Prod.fst hm), ?_⟩
        rintro ⟨pr2, hm2, _, _, hc2⟩
        rw [← hfun u pr pr2 hm hm2] at hc2
        exact hc2 hcl
      · obtain ⟨pr, hm, hu2, ho, hw⟩ := (hmem_underReview u).mp h
        refine ⟨Or.inr (List.mem_map_of_mem Prod.fst hm), ?_⟩
        rintro ⟨pr2, hm2, _, ho2, _⟩
        rw [← hfun u pr pr2 hm hm2] at ho2
        exact ho2 ho
      · obtain ⟨pr, hm, hu2, ho, hw⟩ := (hmem_inProgress u).mp h
        refine ⟨Or.inr (List.mem_map_of_mem Prod.fst hm), ?_⟩
        rintro ⟨pr2, hm2, _, ho2, _⟩
        rw [← hfun u pr pr2 hm hm2] at ho2
        exact ho2 ho
      · obtain ⟨pr, hm, hne⟩ := (hmem_reviewed u).mp h
        refine ⟨Or.inr (List.mem_map_of_mem Prod.fst hm), ?_⟩
        rintro ⟨pr2, hm2, hu2, _, _⟩
        rw [← hfun u pr pr2 hm hm2] at hu2
        exact hne hu2
      · have hiss := (hmem_issues u).mp h
        refine ⟨Or.inl hiss, ?_⟩
        rintro ⟨pr2, hm2, _⟩
        exact hdisj u hiss (hkeys ▸ List.mem_map_of_mem Prod.fst hm2)
    · rintro ⟨hin, hnbad⟩
      rcases hin with hiss | hkey
      · exact Or.inr (Or.inr (Or.inr (Or.inr (Or.inr
          ((hmem_issues u).mpr hiss)))))
      · obtain ⟨⟨u1, pr⟩, hm, hk⟩ := List.mem_map.mp hkey
        obtain rfl : u = u1 := hk.symm
        by_cases huser : pr.userLogin = user
        · by_cases ho : pr.state = "open"
          · cases hw : isWorkInProgress pr.labels with
            | true =>
              exact Or.inr (Or.inr (Or.inr (Or.inl
                ((hmem_inProgress u).mpr ⟨pr, hm, huser, ho, hw⟩))))
            | false =>
              exact Or.inr (Or.inr (Or.inl
                ((hmem_underReview u).mpr ⟨pr, hm, huser, ho, hw⟩)))
          · by_cases hcl : pr.state = "closed"
            · cases hmg : pr.merged with
              | true =>
                exact Or.inl ((hmem_merged u).mpr ⟨pr, hm, huser, ho, hcl, hmg⟩)
              | false =>
                exact Or.inr (Or.inl
                  ((hmem_abandoned u).mpr ⟨pr, hm, huser, ho, hcl, hmg⟩))
            · exact absurd ⟨pr, hm, huser, ho, hcl⟩ hnbad
        · exact Or.inr (Or.inr (Or.inr (Or.inr (Or.inl
            ((hmem_reviewed u).mpr ⟨pr, hm, huser⟩)))))

def prX9 : PullRequest :=
  { userLogin := "other", state := "x", merged := false, labels := [],
    title := "TX", htmlURL := "https://github.com/o/r/pull/9" }

def eX9 : issuesAndPRs :=
  { names := [], issues := [],
    prs := [("https://github.com/o/r/pull/9", ⟨"o", "r", 9⟩)] }

def fetchX9 : prInfo → Option PullRequest := fun _ => some prX9

def esX9 : eventSets := (makeEventSets "Harwayne" fetchX9 eX9).getD esD

def newPRsX9 : List (Url × PullRequest) :=
  ((getPRs fetchX9 eX9).getD ([], [])).2

/-- C1 counterexample: a pull request by a foreign author fetched in
the unrecognized state `"x"` is placed in `reviewed`, so it belongs to
the union of the six sets even though the claim's union (all discovered
identifiers minus every pull request whose state is neither "open" nor
"closed") excludes it.  The claim, instantiated on this concrete run,
is false. -/
theorem c1_partition_counterexample :
    makeEventSets "Harwayne" fetchX9 eX9 = some esX9 ∧
    getPRs fetchX9 eX9 = some (((getPRs fetchX9 eX9).getD ([], [])).1, newPRsX9) ∧
    ¬ (([esX9.merged, esX9.abandoned, esX9.underReview, esX9.inProgress,
         esX9.reviewed, esX9.issues].Pairwise List.Disjoint) ∧
       (∀ u : Url,
         (u ∈ esX9.merged ∨ u ∈ esX9.abandoned ∨ u ∈ esX9.underReview ∨
          u ∈ esX9.inProgress ∨ u ∈ esX9.reviewed ∨ u ∈ esX9.issues) ↔
         ((u ∈ eX9.issues ∨ u ∈ newPRsX9.map Prod.fst) ∧
          ¬ ∃ p ∈ newPRsX9, p.1 = u ∧
              p.2.state ≠ "open" ∧ p.2.state ≠ "closed"))) := by
  refine ⟨by decide, by decide, ?_⟩
  rintro ⟨-, hall⟩
  have h9 := (hall "https://github.com/o/r/pull/9").mp (by decide)
  exact h9.2 ⟨("https://github.com/o/r/pull/9", prX9),
    by decide, by decide, by decide, by decide⟩

def prW1 : PullRequest :=
  { userLogin := "Harwayne", state := "open", merged := false, labels := [],
    title := "T1", htmlURL := "https://github.com/o/r/pull/1" }

def eW1 : issuesAndPRs :=
  { names := [], issues := ["https://github.com/o/r/issues/1"],
    prs := [("https://github.com/o/r/pull/1", ⟨"o", "r", 1⟩)] }

def fetchW1 : prInfo → Option PullRequest := fun _ => some prW1

def esW1 : eventSets := (makeEventSets "Harwayne" fetchW1 eW1).getD esD

def namesW1 : List (Url × String) := ((getPRs fetchW1 eW1).getD ([], [])).1

def newPRsW1 : List (Url × PullRequest) :=
  ((getPRs fetchW1 eW1).getD ([], [])).2

theorem c1_partition_witness :
    ([esW1.merged, esW1.abandoned, esW1.underReview, esW1.inProgress,
      esW1.reviewed, esW1.issues].Pairwise List.Disjoint) ∧
    (∀ u : Url,
      (u ∈ esW1.merged ∨ u ∈ esW1.abandoned ∨ u ∈ esW1.underReview ∨
       u ∈ esW1.inProgress ∨ u ∈ esW1.reviewed ∨ u ∈ esW1.issues) ↔
      ((u ∈ eW1.issues ∨ u ∈ newPRsW1.map Prod.fst) ∧
       ¬ ∃ pr : PullRequest, (u, pr) ∈ newPRsW1 ∧ pr.userLogin = "Harwayne" ∧
           pr.state ≠ "open" ∧ pr.state ≠ "closed")) :=
  c1_partition "Harwayne" fetchW1 eW1 namesW1 newPRsW1 esW1
    (by decide) (by decide) (by decide) (by decide)

/-! ### URL decomposition lemmas -/

theorem splitChar_ne_nil (sep : Char) (l : List Char) :
    splitChar sep l ≠ [] := by
  cases l with
  | nil => simp [splitChar]
  | cons c rest =>
    unfold splitChar
    cases h : splitChar sep rest with
    | nil => simp
    | cons s ss => by_cases hc : c = sep <;> simp [hc]

theorem splitChar_no_sep (sep : Char) (a : List Char) (h : sep ∉ a) :
    splitChar sep a = [a] := by
  induction a with
  | nil => rfl
  | cons c rest ih =>
    simp only [List.mem_cons, not_or] at h
    unfold splitChar
    rw [ih h.2]
    simp [Ne.symm h.1]

theorem splitChar_cons (sep c : Char) (rest : List Char) :
    splitChar sep (c :: rest) =
      match splitChar sep rest with
      | [] => [[c]]
      | s :: ss => if c = sep then [] :: s :: ss else (c :: s) :: ss := rfl

theorem splitChar_append (sep : Char) (a b : List Char) (h : sep ∉ a) :
    splitChar sep (a ++ sep :: b) = a :: splitChar sep b := by
  induction a with
  | nil =>
    simp only [List.nil_append]
    rw [splitChar_cons sep sep b]
    cases hsb : splitChar sep b with
    | nil => exact absurd hsb (splitChar_ne_nil sep b)
    | cons s ss => simp
  | cons c rest ih =>
    simp only [List.mem_cons, not_or] at h
    simp only [List.cons_append]
    rw [splitChar_cons sep c (rest ++ sep :: b), ih h.2]
    simp [Ne.symm h.1]

theorem crackL_structured (owner repo kind num tail : List Char)
    (h1 : '/' ∉ owner) (h2 : '/' ∉ repo) (h3 : '/' ∉ kind) (h4 : '/' ∉ num)
    (htail : tail = [] ∨ ∃ t, tail = '/' :: t) :
    crackL (ghRoot ++ (owner ++ '/' :: (repo ++ '/' :: (kind ++ '/' ::
        (num ++ tail))))) =
      (atoi num).map
        (fun n => { owner := ⟨owner⟩, repo := ⟨repo⟩, number := n }) := by
  have hpre : ghRoot.isPrefixOf (ghRoot ++ (owner ++ '/' :: (repo ++ '/' ::
      (kind ++ '/' :: (num ++ tail))))) = true := by
    simp [List.isPrefixOf_iff_prefix]
  have hsplit : splitChar '/' (owner ++ '/' :: (repo ++ '/' :: (kind ++ '/' ::
      (num ++ tail)))) =
      owner :: repo :: kind :: splitChar '/' (num ++ tail) := by
    rw [splitChar_append _ _ _ h1, splitChar_append _ _ _ h2,
      splitChar_append _ _ _ h3]
  rcases htail with rfl | ⟨t, rfl⟩
  · have hnum : splitChar '/' (num ++ ([] : List Char)) = [num] := by
      rw [List.append_nil]
      exact splitChar_no_sep _ _ h4
    unfold crackL
    simp only [hpre, if_true, List.drop_left, hsplit, hnum,
      List.length_cons, List.length_singleton, List.getD_cons_succ,
      List.getD_cons_zero]
    norm_num
    cases hato : atoi num with
    | none => simp
    | some n => simp
  · have hnum : splitChar '/' (num ++ '/' :: t) = num :: splitChar '/' t :=
      splitChar_append _ _ _ h4
    unfold crackL
    simp only [hpre, if_true, List.drop_left, hsplit, hnum,
      List.length_cons, List.getD_cons_succ, List.getD_cons_zero]
    have hlen : 4 ≤ (splitChar '/' t).length + 1 + 1 + 1 + 1 := by omega
    simp only [hlen, if_true]
    cases hato : atoi num with
    | none => simp
    | some n => simp

theorem crackL_few (l : List Char) (hlen : (splitChar '/' l).length < 4) :
    crackL (ghRoot ++ l) = none := by
  have hpre : ghRoot.isPrefixOf (ghRoot ++ l) = true := by
    simp [List.isPrefixOf_iff_prefix]
  unfold crackL
  simp only [hpre, if_true, List.drop_left]
  rw [if_neg (by omega)]

/-- C6 counterexample: the fourth segment `"0"` does not parse as a
*positive* integer, yet decomposition succeeds on it (Go's
`strconv.Atoi` accepts zero), returning number 0 — refuting the
claimed "succeeds exactly when … the fourth segment parses as a
positive integer". -/
theorem c6_url_decomposition_counterexample :
    crackPRInfo "https://github.com/a/b/pull/0" =
      some { owner := "a", repo := "b", number := 0 } ∧
    ¬ ∃ n : Int, atoi "0".toList = some n ∧ 0 < n := by
  constructor
  · decide
  · rintro ⟨n, hn, hpos⟩
    have h0 : atoi "0".toList = some 0 := by decide
    rw [h0] at hn
    injection hn with h1
    rw [← h1] at hpos
    exact lt_irrefl 0 hpos

/-- C6 (amended): URL decomposition succeeds exactly when the
identifier starts with the platform web-root, the remainder has at
least four `/`-separated segments, and the fourth segment parses as a
(possibly signed, possibly zero or negative) base-10 integer in Go's
`int` range; on success it returns the first segment as owner, the
second as repository and the parsed fourth as number, and it fails
(fatally) otherwise. -/
theorem c6_url_decomposition :
    (∀ owner repo kind num tail : List Char, '/' ∉ owner → '/' ∉ repo →
      '/' ∉ kind → '/' ∉ num → (tail = [] ∨ ∃ t, tail = '/' :: t) →
      crackPRInfo ⟨ghRoot ++ (owner ++ '/' :: (repo ++ '/' :: (kind ++ '/' ::
          (num ++ tail))))⟩ =
        (atoi num).map
          (fun n => { owner := ⟨owner⟩, repo := ⟨repo⟩, number := n })) ∧
    (∀ url : String, ghRoot.isPrefixOf url.toList = false →
      crackPRInfo url = none) ∧
    (∀ l : List Char, (splitChar '/' l).length < 4 →
      crackPRInfo ⟨ghRoot ++ l⟩ = none) := by
  refine ⟨?_, ?_, ?_⟩
  · intro owner repo kind num tail h1 h2 h3 h4 htail
    exact crackL_structured owner repo kind num tail h1 h2 h3 h4 htail
  · intro url h
    have hcond : ¬ (ghRoot.isPrefixOf url.toList = true) := by rw [h]; simp
    unfold crackPRInfo crackL
    rw [if_neg hcond]
  · intro l hlen
    exact crackL_few l hlen

theorem c6_url_decomposition_witness :
    crackPRInfo "https://github.com/ownerX/repoY/pull/42" =
      some { owner := "ownerX", repo := "repoY", number := 42 } := by
  have h := c6_url_decomposition.1 "ownerX".toList "repoY".toList
    "pull".toList "42".toList [] (by decide) (by decide) (by decide)
    (by decide) (Or.inl rfl)
  exact h

/-- C10: decomposition never inspects the third segment nor anything
past the fourth: with the web-root, slash-free first four segments and
an integer fourth segment, it succeeds and returns the same owner,
repository and number for any third segment and any trailing suffix. -/
theorem c10_kind_and_trailing_ignored
    (owner repo kind kind2 num tail tail2 : List Char) (n : Int)
    (h1 : '/' ∉ owner) (h2 : '/' ∉ repo) (h3 : '/' ∉ kind)
    (h3b : '/' ∉ kind2) (h4 : '/' ∉ num)
    (htail : tail = [] ∨ ∃ t, tail = '/' :: t)
    (htail2 : tail2 = [] ∨ ∃ t, tail2 = '/' :: t)
    (hn : atoi num = some n) :
    crackPRInfo ⟨ghRoot ++ (owner ++ '/' :: (repo ++ '/' :: (kind ++ '/' ::
        (num ++ tail))))⟩ =
      some { owner := ⟨owner⟩, repo := ⟨repo⟩, number := n } ∧
    crackPRInfo ⟨ghRoot ++ (owner ++ '/' :: (repo ++ '/' :: (kind2 ++ '/' ::
        (num ++ tail2))))⟩ =
      some { owner := ⟨owner⟩, repo := ⟨repo⟩, number := n } := by
  constructor
  · have h := crackL_structured owner repo kind num tail h1 h2 h3 h4 htail
    rw [hn] at h
    exact h
  · have h := crackL_structured owner repo kind2 num tail2 h1 h2 h3b h4 htail2
    rw [hn] at h
    exact h

theorem c10_kind_and_trailing_ignored_witness :
    crackPRInfo "https://github.com/a/b/issues/5" =
      some { owner := "a", repo := "b", number := 5 } ∧
    crackPRInfo "https://github.com/a/b/pull/5/files/extra" =
      some { owner := "a", repo := "b", number := 5 } := by
  have h := c10_kind_and_trailing_ignored "a".toList "b".toList
    "issues".toList "pull".toList "5".toList [] ('/' :: "files/extra".toList)
    5 (by decide) (by decide) (by decide) (by decide) (by decide)
    (Or.inl rfl) (Or.inr ⟨"files/extra".toList, rfl⟩) (by decide)
  exact h

/-! ### Rendering lemmas -/

theorem replaceTabsL_cons (c : Char) (rest : List Char) :
    replaceTabsL (c :: rest) =
      if c = '\t' then ' ' :: ' ' :: ' ' :: ' ' :: replaceTabsL rest
      else c :: replaceTabsL rest := rfl

theorem replaceTabsL_append (a b : List Char) :
    replaceTabsL (a ++ b) = replaceTabsL a ++ replaceTabsL b := by
  induction a with
  | nil => rfl
  | cons c rest ih =>
    simp only [List.cons_append]
    rw [replaceTabsL_cons c (rest ++ b), replaceTabsL_cons c rest]
    by_cases hc : c = '\t' <;> simp [hc, ih]

theorem replaceTabsL_no_tab (a : List Char) (h : '\t' ∉ a) :
    replaceTabsL a = a := by
  induction a with
  | nil => rfl
  | cons c rest ih =>
    simp only [List.mem_cons, not_or] at h
    rw [replaceTabsL_cons, if_neg (Ne.symm h.1), ih h.2]

theorem replaceTabsL_joinSep (L : List (List Char)) :
    replaceTabsL (joinSep ['\n'] L) = joinSep ['\n'] (L.map replaceTabsL) := by
  induction L with
  | nil => rfl
  | cons s rest ih =>
    cases rest with
    | nil => rfl
    | cons s2 rest2 =>
      rw [show joinSep ['\n'] (s :: s2 :: rest2)
          = s ++ ['\n'] ++ joinSep ['\n'] (s2 :: rest2) from rfl]
      rw [replaceTabsL_append, replaceTabsL_append, ih]
      rfl

theorem replaceTabs_append (s t : String) :
    replaceTabs (s ++ t) = replaceTabs s ++ replaceTabs t := by
  unfold replaceTabs
  apply congrArg String.mk
  rw [show (s ++ t).toList = s.toList ++ t.toList from rfl]
  exact replaceTabsL_append _ _

theorem replaceTabs_no_tab (s : String) (h : '\t' ∉ s.toList) :
    replaceTabs s = s := by
  unfold replaceTabs
  rw [replaceTabsL_no_tab _ h]
  rfl

theorem replaceTabs_joinLines (L : List String) :
    replaceTabs (joinLines L) = joinLines (L.map replaceTabs) := by
  unfold replaceTabs joinLines
  apply congrArg String.mk
  rw [show (String.mk (joinSep ['\n'] (L.map String.toList))).toList
      = joinSep ['\n'] (L.map String.toList) from rfl]
  rw [replaceTabsL_joinSep, List.map_map, List.map_map]
  rfl

theorem findName_mem (names : List (Url × String)) (u : Url) (v : String)
    (h : findName names u = some v) : (u, v) ∈ names := by
  induction names with
  | nil => cases h
  | cons p rest ih =>
    obtain ⟨k, w⟩ := p
    unfold findName at h
    by_cases hk : k = u
    · rw [if_pos hk] at h
      injection h with hv
      rw [← hk, ← hv]
      exact List.mem_cons_self _ _
    · rw [if_neg hk] at h
      exact List.mem_cons_of_mem _ (ih h)

theorem filterMapCongr {α β : Type} (l : List α) (f g : α → Option β)
    (h : ∀ x ∈ l, f x = g x) : l.filterMap f = l.filterMap g := by
  induction l with
  | nil => rfl
  | cons x rest ih =>
    rw [List.filterMap_cons, List.filterMap_cons,
      h x (List.mem_cons_self _ _),
      ih (fun y hy => h y (List.mem_cons_of_mem _ hy))]

/-- The Report Assembler section contract as the spec words it (§4.5):
an empty category contributes nothing, a non-empty one contributes an
indented sub-heading (one four-space unit) then one doubly-indented
line per member that has a registered display name. -/
def specSection (names : List (Url × String)) (sec : List Url)
    (title : String) : List String :=
  if sec = [] then []
  else ("    * " ++ title) ::
    sec.filterMap (fun u => (findName names u).map (fun n => "        * " ++ n))

/-- The full Report Assembler contract as the spec words it (§4.5): the
top-level heading, then the non-empty categories in the fixed order
Merged, Abandoned, Under Review, In Progress, Reviewed, Issues. -/
def specRender (e : eventSets) : String :=
  joinLines ("* GitHub" ::
    (specSection e.names e.merged "Merged" ++
     specSection e.names e.abandoned "Abandoned" ++
     specSection e.names e.underReview "Under Review" ++
     specSection e.names e.inProgress "In Progress" ++
     specSection e.names e.reviewed "Reviewed" ++
     specSection e.names e.issues "Issues"))

theorem map_replaceTabs_printSection (names : List (Url × String))
    (sec : List Url) (title : String) (htitle : '\t' ∉ title.toList)
    (hnames : ∀ p ∈ names, '\t' ∉ (p.2 : String).toList) :
    (printSection names sec title).map (fun s => replaceTabs s)
      = specSection names sec title := by
  unfold printSection specSection
  by_cases hsec : sec = []
  · subst hsec
    simp
  · have hlen : sec.length > 0 := List.length_pos.mpr hsec
    rw [if_pos hlen, if_neg hsec]
    simp only [List.map_cons]
    have hhead : replaceTabs ("\t* " ++ title) = "    * " ++ title := by
      rw [replaceTabs_append, replaceTabs_no_tab title htitle]
      rfl
    have htail :
        (sec.filterMap
            (fun u => (findName names u).map (fun n => "\t\t* " ++ n))).map
            (fun s => replaceTabs s)
          = sec.filterMap
              (fun u => (findName names u).map (fun n => "        * " ++ n)) := by
      rw [List.map_filterMap]
      apply filterMapCongr
      intro u _
      cases hf : findName names u with
      | none => rfl
      | some n =>
        have hn : '\t' ∉ n.toList := hnames (u, n) (findName_mem names u n hf)
        show some (replaceTabs ("\t\t* " ++ n)) = some ("        * " ++ n)
        rw [replaceTabs_append, replaceTabs_no_tab n hn]
        rfl
    rw [hhead, htail]

/-- C8: with tab-free registered names, the rendered report equals the
spec-side rendering: a top-level heading, one indented sub-heading per
non-empty category in the fixed order Merged, Abandoned, Under Review,
In Progress, Reviewed, Issues, one doubly-indented line per member
with a registered display name; empty categories contribute nothing
and nameless members are skipped. -/
theorem c8_report_rendering (e : eventSets)
    (hnames : ∀ p ∈ e.names, '\t' ∉ (p.2 : String).toList) :
    markdown e = specRender e := by
  unfold markdown specRender
  rw [replaceTabs_joinLines]
  apply congrArg joinLines
  simp only [List.map_cons, List.map_append]
  rw [show replaceTabs "* GitHub" = "* GitHub" from rfl,
    map_replaceTabs_printSection e.names e.merged "Merged"
      (by decide) hnames,
    map_replaceTabs_printSection e.names e.abandoned "Abandoned"
      (by decide) hnames,
    map_replaceTabs_printSection e.names e.underReview "Under Review"
      (by decide) hnames,
    map_replaceTabs_printSection e.names e.inProgress "In Progress"
      (by decide) hnames,
    map_replaceTabs_printSection e.names e.reviewed "Reviewed"
      (by decide) hnames,
    map_replaceTabs_printSection e.names e.issues "Issues"
      (by decide) hnames]

def esW8 : eventSets :=
  { names := [("u1", "[A](u1)"), ("u2", "[B](u2)")],
    merged := ["u1"], abandoned := [], underReview := [],
    inProgress := [], reviewed := [], issues := ["u2", "u3"] }

theorem c8_report_rendering_witness :
    markdown esW8 = specRender esW8 :=
  c8_report_rendering esW8 (by decide)

theorem replaceTabs_joinLines_head (L : List String) :
    ∃ r : List Char,
      replaceTabs (joinLines ("* GitHub" :: L))
        = String.mk ("* GitHub".toList ++ r) := by
  cases L with
  | nil => exact ⟨[], rfl⟩
  | cons s L2 =>
    refine ⟨'\n' :: replaceTabsL (joinSep ['\n'] ((s :: L2).map String.toList)), ?_⟩
    show String.mk (replaceTabsL (joinSep ['\n']
        (("* GitHub" :: s :: L2).map String.toList))) = _
    rw [show joinSep ['\n'] (("* GitHub" :: s :: L2).map String.toList)
        = "* GitHub".toList ++ '\n' :: joinSep ['\n'] ((s :: L2).map String.toList)
        from rfl]
    rw [replaceTabsL_append]
    rfl

/-- C9: every rendered report starts with the fixed heading line
`* GitHub`, and a partition whose six categories are all empty renders
to exactly that single line. -/
theorem c9_fixed_heading (e : eventSets) :
    (∃ rest : String, markdown e = "* GitHub" ++ rest) ∧
    (e.merged = [] → e.abandoned = [] → e.underReview = [] →
      e.inProgress = [] → e.reviewed = [] → e.issues = [] →
      markdown e = "* GitHub") := by
  constructor
  · obtain ⟨r, hr⟩ := replaceTabs_joinLines_head
      (printSection e.names e.merged "Merged" ++
       printSection e.names e.abandoned "Abandoned" ++
       printSection e.names e.underReview "Under Review" ++
       printSection e.names e.inProgress "In Progress" ++
       printSection e.names e.reviewed "Reviewed" ++
       printSection e.names e.issues "Issues")
    exact ⟨String.mk r, hr⟩
  · intro h1 h2 h3 h4 h5 h6
    cases e with
    | mk names m a ur ip rv iss =>
      dsimp only at h1 h2 h3 h4 h5 h6
      subst h1; subst h2; subst h3; subst h4; subst h5; subst h6
      rfl

theorem c9_fixed_heading_witness :
    markdown esD = "* GitHub" :=
  (c9_fixed_heading esD).2 rfl rfl rfl rfl rfl rfl
